import Mathlib

/-!
Verification development for the lyric-synchronization core of the
bars-player repository.

Strings are modelled as `List Char`; grapheme clusters of the text fitter
are modelled as an abstract type `G` with a whitespace predicate; pixel
widths are an abstract linearly ordered type (the code only ever compares
`measure ≤ maxWidth`); wall-clock times of the publish throttler are
integers (`Date.now()` milliseconds); fractional quantities of the scroll
calculator are rationals.
-/

namespace BarsPlayer

/-! ### Data model: `LyricLine` (src/lib/lrc.ts) -/

structure LyricLine where
  timeMs : ℕ
  text : List Char
deriving DecidableEq, Repr

/-! ### Timestamp grammar: `TIMESTAMP_REGEX = /\[(\d{1,2}):(\d{2})(?:\.(\d{1,3}))?\]/g`

Matching is modelled positionally with the exact backtracking behaviour of
the regex: greedy quantifiers try the longest digit run first and fall back
to shorter ones; an optional group that fails is skipped.  Each matcher
returns the parsed value together with the number of characters consumed. -/

def dval (c : Char) : ℕ := c.toNat - '0'.toNat

def fracOne : List Char → Option (ℕ × ℕ)
  | a :: ']' :: _ => if a.isDigit then some (100 * dval a, 2) else none
  | _ => none

def fracTwo (l : List Char) : Option (ℕ × ℕ) :=
  match l with
  | a :: b :: ']' :: _ =>
    if a.isDigit && b.isDigit then some (100 * dval a + 10 * dval b, 3) else fracOne l
  | _ => fracOne l

def fracThree (l : List Char) : Option (ℕ × ℕ) :=
  match l with
  | a :: b :: c :: ']' :: _ =>
    if a.isDigit && b.isDigit && c.isDigit then
      some (100 * dval a + 10 * dval b + dval c, 4)
    else fracTwo l
  | _ => fracTwo l

def matchFracClose : List Char → Option (ℕ × ℕ)
  | ']' :: _ => some (0, 1)
  | '.' :: rest => (fracThree rest).map (fun r => (r.1, r.2 + 1))
  | _ => none

def matchSecFrac (l : List Char) : Option (ℕ × ℕ) :=
  match l with
  | a :: b :: rest =>
    if a.isDigit && b.isDigit then
      (matchFracClose rest).map (fun r => ((10 * dval a + dval b) * 1000 + r.1, r.2 + 2))
    else none
  | _ => none

def matchMinOne (l : List Char) : Option (ℕ × ℕ) :=
  match l with
  | a :: ':' :: rest =>
    if a.isDigit then (matchSecFrac rest).map (fun r => (dval a * 60000 + r.1, r.2 + 2))
    else none
  | _ => none

def matchMinSec (l : List Char) : Option (ℕ × ℕ) :=
  match l with
  | a :: b :: ':' :: rest =>
    if a.isDigit && b.isDigit then
      (matchSecFrac rest).map (fun r => ((10 * dval a + dval b) * 60000 + r.1, r.2 + 3))
    else matchMinOne l
  | _ => matchMinOne l

def matchTsAt : List Char → Option (ℕ × ℕ)
  | '[' :: rest => (matchMinSec rest).map (fun r => (r.1, r.2 + 1))
  | _ => none

/-- Left-to-right non-overlapping scan for timestamp tags (the `exec` loop of
`parseLrc`).  The second argument counts characters of a previous match that
must still be skipped. -/
def findTimestampsAux : List Char → ℕ → List ℕ
  | [], _ => []
  | _ :: cs, Nat.succ k => findTimestampsAux cs k
  | c :: cs, 0 =>
    match matchTsAt (c :: cs) with
    | some (t, k) => t :: findTimestampsAux cs (k - 1)
    | none => findTimestampsAux cs 0

def findTimestamps (l : List Char) : List ℕ := findTimestampsAux l 0

/-- Models `line.replace(TIMESTAMP_REGEX, "")`: remove every matched tag, keep the rest. -/
def stripTimestampsAux : List Char → ℕ → List Char
  | [], _ => []
  | _ :: cs, Nat.succ k => stripTimestampsAux cs k
  | c :: cs, 0 =>
    match matchTsAt (c :: cs) with
    | some (_, k) => stripTimestampsAux cs (k - 1)
    | none => c :: stripTimestampsAux cs 0

def stripTimestamps (l : List Char) : List Char := stripTimestampsAux l 0

def isWSChar (c : Char) : Bool := c.isWhitespace

def trimChars (l : List Char) : List Char :=
  ((l.dropWhile isWSChar).reverse.dropWhile isWSChar).reverse

/-- Models `text.split(/\r?\n/)`. -/
def splitLinesAux (acc : List Char) : List Char → List (List Char)
  | [] => [acc.reverse]
  | '\r' :: '\n' :: rest => acc.reverse :: splitLinesAux [] rest
  | '\n' :: rest => acc.reverse :: splitLinesAux [] rest
  | c :: rest => splitLinesAux (c :: acc) rest

def splitLines (l : List Char) : List (List Char) := splitLinesAux [] l

/-- Entries a single source line contributes (body of the `for` loop of `parseLrc`). -/
def lineEntries (line : List Char) : List LyricLine :=
  let ts := findTimestamps line
  if ts.isEmpty then []
  else
    let stripped := trimChars (stripTimestamps line)
    let txt := if stripped.isEmpty then ['.', '.', '.'] else stripped
    ts.map (fun t => ⟨t, txt⟩)

def parseLrcRaw (text : List Char) : List LyricLine :=
  (splitLines text).flatMap lineEntries

/-- Stable insertion used to model `parsed.sort((a, b) => a.timeMs - b.timeMs)`
(JavaScript `Array.prototype.sort` is stable; a stable sort by `timeMs` is
extensionally determined, and insertion sort realises it). -/
def insertByTime (x : LyricLine) : List LyricLine → List LyricLine
  | [] => [x]
  | y :: ys => if x.timeMs ≤ y.timeMs then x :: y :: ys else y :: insertByTime x ys

def sortByTime : List LyricLine → List LyricLine
  | [] => []
  | x :: xs => insertByTime x (sortByTime xs)

def parseLrc (text : List Char) : List LyricLine := sortByTime (parseLrcRaw text)

/-! ### Active-line resolver: `activeLyricIndex` (src/lib/lrc.ts) -/

def dummyLine : LyricLine := ⟨0, []⟩

def timeAt (lines : List LyricLine) (i : ℤ) : ℚ := ((lines.getD i.toNat dummyLine).timeMs : ℚ)

/-- The `while (left <= right)` binary-search loop of `activeLyricIndex`,
with `mid = Math.floor((left + right) / 2)` (integer floor division). -/
def searchLoop (lines : List LyricLine) (currentMs : ℚ) (left right answer : ℤ) : ℤ :=
  if _h : left ≤ right then
    if timeAt lines ((left + right) / 2) ≤ currentMs then
      searchLoop lines currentMs ((left + right) / 2 + 1) right ((left + right) / 2)
    else searchLoop lines currentMs left ((left + right) / 2 - 1) answer
  else answer
termination_by (right + 1 - left).toNat
decreasing_by all_goals omega

def activeLyricIndex (lines : List LyricLine) (currentMs : ℚ) : ℤ :=
  if lines.length = 0 then -1
  else searchLoop lines currentMs 0 ((lines.length : ℤ) - 1) (-1)

/-! ### Grapheme-aware text fitter: `buildFittingWindows` (src/App.tsx)

The input text is a list of grapheme clusters (`splitGraphemes`); `ws`
is the whitespace predicate underlying `trimStart`/`trim`; `measure`
is the injected width measurer, into an arbitrary linear order (the code
only compares `measure ≤ maxWidthPx`). -/

def trimStartG {G : Type} (ws : G → Bool) (l : List G) : List G := l.dropWhile ws

/-- Inner greedy loop of `buildFittingWindows`: extend `candidate` with
successive graphemes while the trimmed candidate still fits; the Boolean
is `reachedLineEnd`. -/
def extendFit {G α : Type} [LinearOrder α] (ws : G → Bool) (measure : List G → α)
    (maxW : α) : List G → List G → List G × Bool
  | candidate, [] => (candidate, true)
  | candidate, g :: rest =>
    if measure (trimStartG ws (candidate ++ [g])) ≤ maxW then
      extendFit ws measure maxW (candidate ++ [g]) rest
    else (candidate, false)

/-- The candidate of the scan position starting at `g :: rest`: the greedy
candidate, falling back to the single grapheme when nothing fits
(`if (!candidate) candidate = graphemes[start]`). -/
def windowCandidate {G α : Type} [LinearOrder α] (ws : G → Bool) (measure : List G → α)
    (maxW : α) (g : G) (rest : List G) : List G :=
  if (extendFit ws measure maxW [] (g :: rest)).1.isEmpty then [g]
  else (extendFit ws measure maxW [] (g :: rest)).1

/-- The window recorded for the scan position starting at `g :: rest`: the
candidate leading-whitespace-trimmed, with the untrimmed candidate kept when
trimming would leave the empty string (`normalized || candidate`). -/
def windowAt {G α : Type} [LinearOrder α] (ws : G → Bool) (measure : List G → α)
    (maxW : α) (g : G) (rest : List G) : List G :=
  if (trimStartG ws (windowCandidate ws measure maxW g rest)).isEmpty then
    windowCandidate ws measure maxW g rest
  else trimStartG ws (windowCandidate ws measure maxW g rest)

/-- Push a window unless it equals the last recorded one
(`if (windows[windows.length - 1] !== finalWindow) windows.push(finalWindow)`). -/
def recordWindow {G : Type} [DecidableEq G] (acc : List (List G)) (w : List G) :
    List (List G) :=
  if acc.getLast? = some w then acc else acc ++ [w]

/-- Outer `for (let start = ...)` loop of `buildFittingWindows`: record the
window at each start position, suppressing a window identical to the last
recorded one, and stop once a window reaches the end of the line. -/
def scanWindows {G α : Type} [LinearOrder α] [DecidableEq G] (ws : G → Bool)
    (measure : List G → α) (maxW : α) : List G → List (List G) → List (List G)
  | [], acc => acc
  | g :: rest, acc =>
    if (extendFit ws measure maxW [] (g :: rest)).2 then
      recordWindow acc (windowAt ws measure maxW g rest)
    else
      scanWindows ws measure maxW rest (recordWindow acc (windowAt ws measure maxW g rest))

def buildFittingWindows {G α : Type} [LinearOrder α] [DecidableEq G] (ws : G → Bool)
    (measure : List G → α) (text : List G) (maxW : α) : List (List G) :=
  if text.all ws then [[]]
  else if measure (trimStartG ws text) ≤ maxW then [trimStartG ws text]
  else if (scanWindows ws measure maxW text []).isEmpty then [text]
  else scanWindows ws measure maxW text []

/-- Concrete whitespace predicate for `Char` graphemes. -/
def wsChar : Char → Bool := Char.isWhitespace

/-- The degraded host measurer of `createTextWidthMeasurer`:
`(text) => text.length * 8`. -/
def fallbackMeasure (l : List Char) : ℕ := l.length * 8

/-! ### Scroll progress calculator (the `lyricWindow` memo, src/App.tsx) -/

def MIN_SCROLL_PORTION : ℚ := 1 / 10

/-- The `scrollPortion` memo: `max(MIN_SCROLL_PORTION, 1 - dwellStart - dwellEnd)`. -/
def scrollPortionOf (ds de : ℚ) : ℚ := max MIN_SCROLL_PORTION (1 - ds - de)

/-- Models `lineDurationMs = Math.max(300, currentLineEndMs - currentLineStartMs)`. -/
def lineDurationMs (startMs endMs : ℚ) : ℚ := max 300 (endMs - startMs)

/-- Models `normalizedLineProgress = Math.min(1, Math.max(0, elapsedInLineMs / lineDurationMs))`. -/
def normalizedLineProgress (startMs endMs nowMs : ℚ) : ℚ :=
  min 1 (max 0 ((nowMs - startMs) / lineDurationMs startMs endMs))

/-- Models `scrollEnd = Math.min(1 - MIN_SCROLL_PORTION, scrollDwellStart + scrollPortion)`. -/
def scrollEndOf (ds de : ℚ) : ℚ := min (1 - MIN_SCROLL_PORTION) (ds + scrollPortionOf ds de)

/-- The `progress` variable of the `lyricWindow` memo. -/
def lineProgress (ds de startMs endMs nowMs : ℚ) : ℚ :=
  if normalizedLineProgress startMs endMs nowMs ≤ ds then 0
  else if scrollEndOf ds de ≤ normalizedLineProgress startMs endMs nowMs then 1
  else (normalizedLineProgress startMs endMs nowMs - ds) / (scrollEndOf ds de - ds)

/-- The `currentWindowIndex` selection: `0` for at most one window, otherwise
`Math.min(count - 1, Math.floor(progress * (count - 1)))`. -/
def currentWindowIndex (ds de startMs endMs nowMs : ℚ) (n : ℕ) : ℤ :=
  if n ≤ 1 then 0
  else min ((n : ℤ) - 1) (Int.floor (lineProgress ds de startMs endMs nowMs * ((n : ℚ) - 1)))

/-- Modelled from the spec's wording of C4 for the refinement comparison:
raw progress `(c - a)/duration` clamped to `[0,1]`, the same dwell mapping,
and selected index `clamp(floor(mapped * (n - 1)), 0, n - 1)`. -/
def specRawProgress (a b c : ℚ) : ℚ := min 1 (max 0 ((c - a) / max 300 (b - a)))

/-- Spec-side mapped progress (C4 wording). -/
def specMappedProgress (ds de a b c : ℚ) : ℚ :=
  if specRawProgress a b c ≤ ds then 0
  else if min (9 / 10) (ds + max (1 / 10) (1 - ds - de)) ≤ specRawProgress a b c then 1
  else (specRawProgress a b c - ds) / (min (9 / 10) (ds + max (1 / 10) (1 - ds - de)) - ds)

/-- Spec-side selected window index (C4 wording, with the two-sided clamp). -/
def specWindowIndex (ds de a b c : ℚ) (n : ℕ) : ℤ :=
  if n ≤ 1 then 0
  else max 0 (min ((n : ℤ) - 1) (Int.floor (specMappedProgress ds de a b c * ((n : ℚ) - 1))))

/-! ### Dwell profile handlers (src/App.tsx) -/

structure ScrollProfile where
  dwellStart : ℚ
  dwellEnd : ℚ
deriving DecidableEq, Repr

/-- Models `handleScrollDwellStartChange`. -/
def applyDwellStart (s : ScrollProfile) (v : ℚ) : ScrollProfile :=
  let clamped := min (9 / 10) (max 0 v)
  ⟨clamped, min s.dwellEnd (max 0 (1 - MIN_SCROLL_PORTION - clamped))⟩

/-- Models `handleScrollDwellEndChange`. -/
def applyDwellEnd (s : ScrollProfile) (v : ℚ) : ScrollProfile :=
  let clamped := min (9 / 10) (max 0 v)
  ⟨min s.dwellStart (max 0 (1 - MIN_SCROLL_PORTION - clamped)), clamped⟩

inductive DwellUpdate where
  | setStart (v : ℚ)
  | setEnd (v : ℚ)

def applyDwellUpdate (s : ScrollProfile) : DwellUpdate → ScrollProfile
  | DwellUpdate.setStart v => applyDwellStart s v
  | DwellUpdate.setEnd v => applyDwellEnd s v

def applyDwellUpdates (s : ScrollProfile) : List DwellUpdate → ScrollProfile
  | [] => s
  | u :: us => applyDwellUpdates (applyDwellUpdate s u) us

/-- The dwell invariant maintained by the handlers: each fraction lies in
`[0, 0.9]` and the sum is at most `1 - MIN_SCROLL_PORTION = 0.9`. -/
def DwellInv (s : ScrollProfile) : Prop :=
  0 ≤ s.dwellStart ∧ s.dwellStart ≤ 9 / 10 ∧ 0 ≤ s.dwellEnd ∧ s.dwellEnd ≤ 9 / 10 ∧
    s.dwellStart + s.dwellEnd ≤ 9 / 10

/-! ### Publish throttler (the metadata effect of src/App.tsx)

`P` is the payload type; equality of payloads models equality of the
`JSON.stringify` signatures.  Times are integer milliseconds (`Date.now()`).
The timer field stores the absolute time at which the armed `setTimeout`
is due (`now + Math.max(0, minInterval - elapsed)`). -/

structure ThrottleState (P : Type) where
  lastSentAt : ℤ
  lastSig : Option P
  pending : Option P
  timer : Option ℤ
deriving DecidableEq, Repr

inductive ThrottleEv (P : Type) where
  | submit (t : ℤ) (p : P)
  | fire (t : ℤ)
deriving DecidableEq, Repr

/-- One step of the throttler: a `submit` is the effect body running at time
`t` with candidate payload `p`; a `fire` is the armed timer callback running
at time `t`.  The second component is the payload published by that step,
if any. -/
def throttleStep {P : Type} [DecidableEq P] (interval : ℤ) (s : ThrottleState P) :
    ThrottleEv P → ThrottleState P × Option (ℤ × P)
  | ThrottleEv.submit t p =>
    if some p = s.lastSig ∧ s.pending = none then (s, none)
    else if interval ≤ t - s.lastSentAt then
      (⟨t, some p, none, none⟩, some (t, p))
    else
      match s.timer with
      | some _ => ({ s with pending := some p }, none)
      | none =>
        ({ s with pending := some p,
                  timer := some (t + max 0 (interval - (t - s.lastSentAt))) }, none)
  | ThrottleEv.fire t =>
    match s.timer with
    | none => (s, none)
    | some _ =>
      match s.pending with
      | none => ({ s with timer := none }, none)
      | some p => (⟨t, some p, none, none⟩, some (t, p))

def runThrottle {P : Type} [DecidableEq P] (interval : ℤ) (s : ThrottleState P) :
    List (ThrottleEv P) → ThrottleState P × List (ℤ × P)
  | [] => (s, [])
  | e :: es =>
    ((runThrottle interval (throttleStep interval s e).1 es).1,
      (throttleStep interval s e).2.toList ++
        (runThrottle interval (throttleStep interval s e).1 es).2)

/-- A trace is admissible when every timer callback runs no earlier than the
time it was scheduled for. -/
def FireOk {P : Type} (s : ThrottleState P) : ThrottleEv P → Prop
  | ThrottleEv.fire t =>
    match s.timer with
    | some τ => τ ≤ t
    | none => True
  | ThrottleEv.submit _ _ => True

def FiresValid {P : Type} [DecidableEq P] (interval : ℤ) :
    ThrottleState P → List (ThrottleEv P) → Prop
  | _, [] => True
  | s, e :: es => FireOk s e ∧ FiresValid interval (throttleStep interval s e).1 es

/-- Throttler state invariant: any armed timer is due no earlier than
`lastSentAt + interval`. -/
def TInv {P : Type} (interval : ℤ) (s : ThrottleState P) : Prop :=
  ∀ τ, s.timer = some τ → s.lastSentAt + interval ≤ τ

/-! ## Helper lemmas -/

theorem mem_of_getLast?_eq {β : Type} {l : List β} {a : β} (h : l.getLast? = some a) :
    a ∈ l := by
  obtain ⟨hne, hx⟩ := List.mem_getLast?_eq_getLast (l := l) (x := a) h
  exact hx ▸ List.getLast_mem hne

theorem mem_trimStartG {G : Type} (ws : G → Bool) {g : G} :
    ∀ {l : List G}, g ∈ l → ws g = false → g ∈ trimStartG ws l := by
  intro l
  induction l with
  | nil => intro h _; exact absurd h (List.not_mem_nil g)
  | cons x xs ih =>
    intro hmem hws
    rcases List.mem_cons.mp hmem with hx | hx
    · subst hx
      simp [trimStartG, List.dropWhile_cons, hws]
    · by_cases hwx : ws x
      · simpa [trimStartG, List.dropWhile_cons, hwx] using ih hx hws
      · simp only [trimStartG, List.dropWhile_cons, hwx]
        exact List.mem_cons_of_mem x hx

theorem trimStartG_ne_nil {G : Type} (ws : G → Bool) {l : List G} {g : G}
    (hg : g ∈ l) (hws : ws g = false) : trimStartG ws l ≠ [] :=
  List.ne_nil_of_mem (mem_trimStartG ws hg hws)

theorem extendFit_take {G α : Type} [LinearOrder α] (ws : G → Bool) (measure : List G → α)
    (maxW : α) : ∀ (l cand : List G), ∃ n, (extendFit ws measure maxW cand l).1 = cand ++ l.take n := by
  intro l
  induction l with
  | nil => intro cand; exact ⟨0, by simp [extendFit]⟩
  | cons g rest ih =>
    intro cand
    by_cases h : measure (trimStartG ws (cand ++ [g])) ≤ maxW
    · obtain ⟨n, hn⟩ := ih (cand ++ [g])
      exact ⟨n + 1, by simp [extendFit, h, hn]⟩
    · exact ⟨0, by simp [extendFit, h]⟩

theorem extendFit_of_reached {G α : Type} [LinearOrder α] (ws : G → Bool)
    (measure : List G → α) (maxW : α) :
    ∀ (l cand : List G), (extendFit ws measure maxW cand l).2 = true →
      (extendFit ws measure maxW cand l).1 = cand ++ l := by
  intro l
  induction l with
  | nil => intro cand _; simp [extendFit]
  | cons g rest ih =>
    intro cand h2
    by_cases h : measure (trimStartG ws (cand ++ [g])) ≤ maxW
    · have := ih (cand ++ [g]) (by simpa [extendFit, h] using h2)
      simpa [extendFit, h] using this
    · simp [extendFit, h] at h2

theorem windowCandidate_ne_nil {G α : Type} [LinearOrder α] (ws : G → Bool)
    (measure : List G → α) (maxW : α) (g : G) (rest : List G) :
    windowCandidate ws measure maxW g rest ≠ [] := by
  unfold windowCandidate
  split
  · simp
  · next h => simpa [List.isEmpty_iff] using h

theorem mem_windowCandidate_self {G α : Type} [LinearOrder α] (ws : G → Bool)
    (measure : List G → α) (maxW : α) (g : G) (rest : List G) :
    g ∈ windowCandidate ws measure maxW g rest := by
  unfold windowCandidate
  split
  · exact List.mem_singleton.mpr rfl
  · next h =>
    obtain ⟨n, hn⟩ := extendFit_take ws measure maxW (g :: rest) []
    rw [hn]
    cases n with
    | zero => rw [hn] at h; simp at h
    | succ m => simp

theorem windowAt_ne_nil {G α : Type} [LinearOrder α] (ws : G → Bool)
    (measure : List G → α) (maxW : α) (g : G) (rest : List G) :
    windowAt ws measure maxW g rest ≠ [] := by
  unfold windowAt
  split
  · exact windowCandidate_ne_nil ws measure maxW g rest
  · next h => simpa [List.isEmpty_iff] using h

theorem mem_windowAt_self {G α : Type} [LinearOrder α] (ws : G → Bool)
    (measure : List G → α) (maxW : α) (g : G) (rest : List G) (hws : ws g = false) :
    g ∈ windowAt ws measure maxW g rest := by
  have hc : g ∈ trimStartG ws (windowCandidate ws measure maxW g rest) :=
    mem_trimStartG ws (mem_windowCandidate_self ws measure maxW g rest) hws
  unfold windowAt
  split
  · next h =>
    exact absurd (List.isEmpty_iff.mp h) (List.ne_nil_of_mem hc)
  · exact hc

theorem mem_windowAt_of_reached {G α : Type} [LinearOrder α] (ws : G → Bool)
    (measure : List G → α) (maxW : α) {g : G} {rest : List G}
    (h2 : (extendFit ws measure maxW [] (g :: rest)).2 = true) :
    ∀ x ∈ g :: rest, ws x = false → x ∈ windowAt ws measure maxW g rest := by
  intro x hx hws
  have h1 : (extendFit ws measure maxW [] (g :: rest)).1 = g :: rest := by
    simpa using extendFit_of_reached ws measure maxW (g :: rest) [] h2
  have hcand : windowCandidate ws measure maxW g rest = g :: rest := by
    unfold windowCandidate
    rw [h1]
    simp
  have hc : x ∈ trimStartG ws (windowCandidate ws measure maxW g rest) := by
    rw [hcand]
    exact mem_trimStartG ws hx hws
  unfold windowAt
  split
  · next h =>
    exact absurd (List.isEmpty_iff.mp h) (List.ne_nil_of_mem hc)
  · exact hc

theorem mem_recordWindow_self {G : Type} [DecidableEq G] (acc : List (List G))
    (w : List G) : w ∈ recordWindow acc w := by
  unfold recordWindow
  split
  · next h => exact mem_of_getLast?_eq h
  · simp

theorem mem_recordWindow_of_mem {G : Type} [DecidableEq G] {acc : List (List G)}
    {x : List G} (w : List G) (h : x ∈ acc) : x ∈ recordWindow acc w := by
  unfold recordWindow
  split
  · exact h
  · exact List.mem_append_left _ h

theorem scanWindows_append {G α : Type} [LinearOrder α] [DecidableEq G] (ws : G → Bool)
    (measure : List G → α) (maxW : α) :
    ∀ (l : List G) (acc : List (List G)), ∃ t, scanWindows ws measure maxW l acc = acc ++ t := by
  intro l
  induction l with
  | nil => intro acc; exact ⟨[], by simp [scanWindows]⟩
  | cons g rest ih =>
    intro acc
    have hrec : ∃ t, recordWindow acc (windowAt ws measure maxW g rest) = acc ++ t := by
      unfold recordWindow
      split
      · exact ⟨[], by simp⟩
      · exact ⟨[windowAt ws measure maxW g rest], rfl⟩
    rw [scanWindows]
    split
    · exact hrec
    · obtain ⟨t₁, ht₁⟩ := hrec
      obtain ⟨t₂, ht₂⟩ := ih (recordWindow acc (windowAt ws measure maxW g rest))
      exact ⟨t₁ ++ t₂, by rw [ht₂, ht₁, List.append_assoc]⟩

theorem mem_scanWindows_of_mem {G α : Type} [LinearOrder α] [DecidableEq G] (ws : G → Bool)
    (measure : List G → α) (maxW : α) (l : List G) {acc : List (List G)} {x : List G}
    (h : x ∈ acc) : x ∈ scanWindows ws measure maxW l acc := by
  obtain ⟨t, ht⟩ := scanWindows_append ws measure maxW l acc
  rw [ht]
  exact List.mem_append_left _ h

theorem scanWindows_cover {G α : Type} [LinearOrder α] [DecidableEq G] (ws : G → Bool)
    (measure : List G → α) (maxW : α) :
    ∀ (l : List G) (acc : List (List G)) (g : G), g ∈ l → ws g = false →
      ∃ w ∈ scanWindows ws measure maxW l acc, g ∈ w := by
  intro l
  induction l with
  | nil => intro acc g hg _; exact absurd hg (List.not_mem_nil g)
  | cons x rest ih =>
    intro acc g hg hws
    rw [scanWindows]
    split
    · next hreach =>
      exact ⟨windowAt ws measure maxW x rest, mem_recordWindow_self acc _,
        mem_windowAt_of_reached ws measure maxW hreach g hg hws⟩
    · rcases List.mem_cons.mp hg with rfl | hgr
      · exact ⟨windowAt ws measure maxW g rest,
          mem_scanWindows_of_mem ws measure maxW rest (mem_recordWindow_self acc _),
          mem_windowAt_self ws measure maxW g rest hws⟩
      · exact ih (recordWindow acc (windowAt ws measure maxW x rest)) g hgr hws

theorem scanWindows_ne_nil_of_acc {G α : Type} [LinearOrder α] [DecidableEq G] (ws : G → Bool)
    (measure : List G → α) (maxW : α) :
    ∀ (l : List G) (acc : List (List G)), (∀ w ∈ acc, w ≠ []) →
      ∀ w ∈ scanWindows ws measure maxW l acc, w ≠ [] := by
  intro l
  induction l with
  | nil => intro acc hacc; simpa [scanWindows] using hacc
  | cons g rest ih =>
    intro acc hacc
    have hrec : ∀ w ∈ recordWindow acc (windowAt ws measure maxW g rest), w ≠ [] := by
      intro w hw
      unfold recordWindow at hw
      split at hw
      · exact hacc w hw
      · rcases List.mem_append.mp hw with h | h
        · exact hacc w h
        · rw [List.mem_singleton.mp h]
          exact windowAt_ne_nil ws measure maxW g rest
    rw [scanWindows]
    split
    · exact hrec
    · exact ih (recordWindow acc (windowAt ws measure maxW g rest)) hrec

/-! ## Claim C1 -/

/-- C1, as stated, is false: `buildFittingWindows` trims leading whitespace,
so a whitespace grapheme need not appear in any returned window.  With the
code's own fallback measurer (8px per character) and a 40px budget, the text
`" a"` fits once trimmed and yields the single window `"a"`, which does not
contain the space grapheme. -/
theorem c1_counterexample :
    ¬ (buildFittingWindows wsChar fallbackMeasure (" a".toList) 40 ≠ [] ∧
        ∀ g ∈ (" a".toList), ∃ w ∈ buildFittingWindows wsChar fallbackMeasure (" a".toList) 40, g ∈ w) := by
  decide

/-- C1 (amended): for every input text, width budget and measuring function,
`buildFittingWindows` returns a non-empty sequence of windows, and every
non-whitespace grapheme cluster of the input appears in at least one
returned window (whitespace graphemes can be lost to leading-whitespace
trimming). -/
theorem c1_fitter_nonempty_and_coverage {G α : Type} [LinearOrder α] [DecidableEq G]
    (ws : G → Bool) (measure : List G → α) (text : List G) (maxW : α) :
    buildFittingWindows ws measure text maxW ≠ [] ∧
      ∀ g ∈ text, ws g = false →
        ∃ w ∈ buildFittingWindows ws measure text maxW, g ∈ w := by
  constructor
  · unfold buildFittingWindows
    split
    · simp
    · split
      · simp
      · split
        · simp
        · next he => simpa [List.isEmpty_iff] using he
  · intro g hg hws
    unfold buildFittingWindows
    split
    · next hall => exact absurd (List.all_eq_true.mp hall g hg) (by simp [hws])
    · split
      · exact ⟨trimStartG ws text, List.mem_singleton.mpr rfl, mem_trimStartG ws hg hws⟩
      · split
        · exact ⟨text, List.mem_singleton.mpr rfl, hg⟩
        · exact scanWindows_cover ws measure maxW text [] g hg hws

/-- C1 witness: the amended coverage at a concrete input.  With the fallback
measurer, an 8px budget and text `"a b"`, the fitter returns `["a", "b"]`
and the two letters each appear in a window. -/
theorem c1_witness :
    buildFittingWindows wsChar fallbackMeasure ("a b".toList) 8 ≠ [] ∧
      ∀ g ∈ ("a b".toList), wsChar g = false →
        ∃ w ∈ buildFittingWindows wsChar fallbackMeasure ("a b".toList) 8, g ∈ w :=
  c1_fitter_nonempty_and_coverage wsChar fallbackMeasure ("a b".toList) 8

/-! ## Claim C9 -/

/-- C9: whenever the leading-whitespace-trimmed text already fits the budget,
`buildFittingWindows` returns exactly the one window `text.trimStart()`
(this includes the all-whitespace branch, whose `[""]` coincides with the
trimmed text). -/
theorem c9_fitter_degenerate {G α : Type} [LinearOrder α] [DecidableEq G] (ws : G → Bool)
    (measure : List G → α) (text : List G) (maxW : α)
    (h : measure (trimStartG ws text) ≤ maxW) :
    buildFittingWindows ws measure text maxW = [trimStartG ws text] := by
  unfold buildFittingWindows
  split
  · next hall =>
    have hnil : trimStartG ws text = [] :=
      List.dropWhile_eq_nil_iff.mpr (fun x hx => List.all_eq_true.mp hall x hx)
    rw [hnil]
  · simp [h]

/-- C9 witness: the text `" a"` with the fallback measurer and a 40px budget
trims to `"a"`, measures 8 ≤ 40, and the fitter returns exactly `["a"]`. -/
theorem c9_witness :
    fallbackMeasure (trimStartG wsChar (" a".toList)) ≤ 40 ∧
      buildFittingWindows wsChar fallbackMeasure (" a".toList) 40 =
        [trimStartG wsChar (" a".toList)] :=
  ⟨by decide, c9_fitter_degenerate wsChar fallbackMeasure (" a".toList) 40 (by decide)⟩

/-! ## Claim C10 -/

/-- C10: if the input contains at least one non-whitespace grapheme, every
window returned by `buildFittingWindows` is non-empty (an all-whitespace
scanned window is recorded untrimmed instead of as the empty string). -/
theorem c10_windows_nonempty {G α : Type} [LinearOrder α] [DecidableEq G] (ws : G → Bool)
    (measure : List G → α) (text : List G) (maxW : α)
    (hx : ∃ g ∈ text, ws g = false) :
    ∀ w ∈ buildFittingWindows ws measure text maxW, w ≠ [] := by
  obtain ⟨g, hg, hws⟩ := hx
  unfold buildFittingWindows
  split
  · next hall => exact absurd (List.all_eq_true.mp hall g hg) (by simp [hws])
  · split
    · intro w hw
      rw [List.mem_singleton.mp hw]
      exact trimStartG_ne_nil ws hg hws
    · split
      · intro w hw
        rw [List.mem_singleton.mp hw]
        exact List.ne_nil_of_mem hg
      · exact scanWindows_ne_nil_of_acc ws measure maxW text []
          (fun w hw => absurd hw (List.not_mem_nil w))

/-- C10 witness: `"a b"` with the fallback measurer and an 8px budget has a
non-whitespace character; the window `"a"` it returns is non-empty. -/
theorem c10_witness :
    "a".toList ∈ buildFittingWindows wsChar fallbackMeasure ("a b".toList) 8 ∧
      "a".toList ≠ ([] : List Char) :=
  ⟨by decide,
    c10_windows_nonempty wsChar fallbackMeasure ("a b".toList) 8
      ⟨'a', by decide, by decide⟩ ("a".toList) (by decide)⟩

/-! ## Claim C4 -/

theorem specMappedProgress_nonneg (ds de a b c : ℚ) : 0 ≤ specMappedProgress ds de a b c := by
  unfold specMappedProgress
  split
  · exact le_refl 0
  · split
    · exact zero_le_one
    · next h1 h2 =>
      have hds : ds < specRawProgress a b c := lt_of_not_le h1
      have hse : specRawProgress a b c < min (9 / 10) (ds + max (1 / 10) (1 - ds - de)) :=
        lt_of_not_le h2
      apply div_nonneg <;> linarith

theorem lineProgress_eq_spec (ds de a b c : ℚ) :
    lineProgress ds de a b c = specMappedProgress ds de a b c := by
  have hraw : normalizedLineProgress a b c = specRawProgress a b c := rfl
  have hse : scrollEndOf ds de = min (9 / 10) (ds + max (1 / 10) (1 - ds - de)) := by
    unfold scrollEndOf scrollPortionOf MIN_SCROLL_PORTION
    norm_num
  unfold lineProgress specMappedProgress
  rw [hraw, hse]

/-- C4: the window-selection pipeline of the `lyricWindow` memo agrees with
the spec's description for all inputs — raw progress clamped to `[0, 1]`,
the dwell mapping, and selected index `clamp(floor(mapped * (n - 1)), 0, n - 1)`
(the code omits the lower clamp, which is redundant because mapped progress
is never negative) — and it produces the spec's concrete example values:
with dwell fractions 1/4, a 4000ms line starting at 0 and 3 windows,
elapsed 500ms selects window 0, 2000ms window 1, and 3800ms window 2. -/
theorem c4_scroll_window_index :
    (∀ ds de startMs endMs nowMs : ℚ, ∀ n : ℕ,
        currentWindowIndex ds de startMs endMs nowMs n =
          specWindowIndex ds de startMs endMs nowMs n) ∧
      currentWindowIndex (1 / 4) (1 / 4) 0 4000 500 3 = 0 ∧
      currentWindowIndex (1 / 4) (1 / 4) 0 4000 2000 3 = 1 ∧
      currentWindowIndex (1 / 4) (1 / 4) 0 4000 3800 3 = 2 := by
  refine ⟨?_, ?_, ?_, ?_⟩
  · intro ds de a b c n
    unfold currentWindowIndex specWindowIndex
    rw [lineProgress_eq_spec]
    split
    · rfl
    · next hn =>
      rw [eq_comm, max_eq_right]
      apply le_min
      · omega
      · rw [Int.le_floor]
        push_cast
        apply mul_nonneg (specMappedProgress_nonneg ds de a b c)
        have h2 : 2 ≤ n := by omega
        have : (2 : ℚ) ≤ (n : ℚ) := by exact_mod_cast h2
        linarith
  · norm_num [currentWindowIndex, lineProgress, normalizedLineProgress, lineDurationMs,
      scrollEndOf, scrollPortionOf, MIN_SCROLL_PORTION]
  · norm_num [currentWindowIndex, lineProgress, normalizedLineProgress, lineDurationMs,
      scrollEndOf, scrollPortionOf, MIN_SCROLL_PORTION]
  · norm_num [currentWindowIndex, lineProgress, normalizedLineProgress, lineDurationMs,
      scrollEndOf, scrollPortionOf, MIN_SCROLL_PORTION]

/-! ## Claim C8 -/

theorem dwell_clamp_sum_le (x y : ℚ) (hx : x ≤ 9 / 10) :
    x + min y (max 0 (1 - 1 / 10 - x)) ≤ 9 / 10 := by
  rcases le_total (1 - 1 / 10 - x) 0 with h | h
  · rw [max_eq_left h]
    have := min_le_right y (0 : ℚ)
    linarith
  · rw [max_eq_right h]
    have := min_le_right y (1 - 1 / 10 - x)
    linarith

theorem dwell_step_preserves (s : ScrollProfile) (u : DwellUpdate) (h : DwellInv s) :
    DwellInv (applyDwellUpdate s u) := by
  obtain ⟨h1, h2, h3, h4, h5⟩ := h
  cases u with
  | setStart v =>
    unfold applyDwellUpdate applyDwellStart MIN_SCROLL_PORTION DwellInv
    refine ⟨le_min (by norm_num) (le_max_left 0 v), min_le_left _ _,
      le_min h3 (le_max_left 0 _), le_trans (min_le_left _ _) h4, ?_⟩
    exact dwell_clamp_sum_le _ _ (min_le_left _ _)
  | setEnd v =>
    unfold applyDwellUpdate applyDwellEnd MIN_SCROLL_PORTION DwellInv
    refine ⟨le_min h1 (le_max_left 0 _), le_trans (min_le_left _ _) h2,
      le_min (by norm_num) (le_max_left 0 v), min_le_left _ _, ?_⟩
    have := dwell_clamp_sum_le (min (9 / 10) (max 0 v)) s.dwellStart (min_le_left _ _)
    linarith [this]

/-- C8: starting from any state satisfying the dwell invariant, any sequence
of dwell-start/dwell-end updates through the handlers keeps
`dwellStart + dwellEnd ≤ 0.9` with each fraction in `[0, 0.9]`. -/
theorem c8_dwell_invariant (s : ScrollProfile) (us : List DwellUpdate) (h : DwellInv s) :
    DwellInv (applyDwellUpdates s us) := by
  induction us generalizing s with
  | nil => exact h
  | cons u us ih =>
    rw [applyDwellUpdates]
    exact ih _ (dwell_step_preserves s u h)

/-- C8 witness: from the default profile (1/4, 1/4), setting dwell-start to
0.95 and then dwell-end to 0.5 keeps the invariant. -/
theorem c8_witness :
    DwellInv (applyDwellUpdates ⟨1 / 4, 1 / 4⟩
      [DwellUpdate.setStart (95 / 100), DwellUpdate.setEnd (1 / 2)]) :=
  c8_dwell_invariant ⟨1 / 4, 1 / 4⟩ _ (by unfold DwellInv; norm_num)

/-! ## Sorting lemmas for the parser -/

theorem mem_insertByTime {x z : LyricLine} :
    ∀ {l : List LyricLine}, z ∈ insertByTime x l ↔ z = x ∨ z ∈ l := by
  intro l
  induction l with
  | nil => simp [insertByTime]
  | cons y ys ih =>
    by_cases h : x.timeMs ≤ y.timeMs
    · simp only [insertByTime, if_pos h, List.mem_cons]
    · simp only [insertByTime, if_neg h, List.mem_cons, ih]
      tauto

theorem insertByTime_pairwise {x : LyricLine} :
    ∀ {l : List LyricLine}, l.Pairwise (fun a b => a.timeMs ≤ b.timeMs) →
      (insertByTime x l).Pairwise (fun a b => a.timeMs ≤ b.timeMs) := by
  intro l
  induction l with
  | nil => intro _; simp [insertByTime]
  | cons y ys ih =>
    intro hp
    rw [List.pairwise_cons] at hp
    obtain ⟨hy, hys⟩ := hp
    by_cases h : x.timeMs ≤ y.timeMs
    · simp only [insertByTime, if_pos h]
      rw [List.pairwise_cons]
      refine ⟨?_, List.pairwise_cons.mpr ⟨hy, hys⟩⟩
      intro z hz
      rcases List.mem_cons.mp hz with rfl | hz
      · exact h
      · exact le_trans h (hy z hz)
    · simp only [insertByTime, if_neg h]
      rw [List.pairwise_cons]
      refine ⟨?_, ih hys⟩
      intro z hz
      rcases mem_insertByTime.mp hz with rfl | hz
      · exact le_of_lt (lt_of_not_le h)
      · exact hy z hz

theorem sortByTime_pairwise : ∀ l : List LyricLine,
    (sortByTime l).Pairwise (fun a b => a.timeMs ≤ b.timeMs) := by
  intro l
  induction l with
  | nil => simp [sortByTime]
  | cons x xs ih =>
    rw [sortByTime]
    exact insertByTime_pairwise ih

theorem mem_sortByTime {z : LyricLine} : ∀ {l : List LyricLine}, z ∈ sortByTime l ↔ z ∈ l := by
  intro l
  induction l with
  | nil => simp [sortByTime]
  | cons x xs ih =>
    rw [sortByTime, mem_insertByTime, ih, List.mem_cons]

theorem filter_insertByTime_pos {x : LyricLine} {k : ℕ} (hx : x.timeMs = k) :
    ∀ l : List LyricLine,
      (insertByTime x l).filter (fun e => e.timeMs == k) =
        x :: l.filter (fun e => e.timeMs == k) := by
  intro l
  induction l with
  | nil => simp [insertByTime, List.filter_cons, hx]
  | cons y ys ih =>
    by_cases h : x.timeMs ≤ y.timeMs
    · simp only [insertByTime, if_pos h]
      rw [List.filter_cons, if_pos (by simp [hx])]
    · have hy : y.timeMs ≠ k := by
        have : y.timeMs < x.timeMs := lt_of_not_le h
        omega
      simp only [insertByTime, if_neg h]
      rw [List.filter_cons, if_neg (by simp [hy]), ih,
        List.filter_cons, if_neg (by simp [hy])]

theorem filter_insertByTime_neg {x : LyricLine} {k : ℕ} (hx : x.timeMs ≠ k) :
    ∀ l : List LyricLine,
      (insertByTime x l).filter (fun e => e.timeMs == k) =
        l.filter (fun e => e.timeMs == k) := by
  intro l
  induction l with
  | nil => simp [insertByTime, List.filter_cons, hx]
  | cons y ys ih =>
    by_cases h : x.timeMs ≤ y.timeMs
    · simp only [insertByTime, if_pos h]
      rw [List.filter_cons, if_neg (by simp [hx])]
    · simp only [insertByTime, if_neg h]
      rw [List.filter_cons, ih, List.filter_cons]

theorem filter_sortByTime (k : ℕ) : ∀ l : List LyricLine,
    (sortByTime l).filter (fun e => e.timeMs == k) = l.filter (fun e => e.timeMs == k) := by
  intro l
  induction l with
  | nil => rfl
  | cons x xs ih =>
    rw [sortByTime]
    by_cases hx : x.timeMs = k
    · rw [filter_insertByTime_pos hx, ih, List.filter_cons, if_pos (by simp [hx])]
    · rw [filter_insertByTime_neg hx, ih, List.filter_cons, if_neg (by simp [hx])]

/-! ## Claim C5 -/

/-- C5: for every input text the timeline returned by `parseLrc` is sorted
ascending by `timeMs` (each adjacent pair is `≤`), and for every time key the
entries carrying that `timeMs` appear exactly in their emission order (the
sort is stable on ties). -/
theorem c5_timeline_sorted_stable (text : List Char) :
    List.Chain' (fun a b : LyricLine => a.timeMs ≤ b.timeMs) (parseLrc text) ∧
      ∀ k : ℕ, (parseLrc text).filter (fun e => e.timeMs == k) =
        (parseLrcRaw text).filter (fun e => e.timeMs == k) :=
  ⟨List.Pairwise.chain' (sortByTime_pairwise (parseLrcRaw text)),
    fun k => filter_sortByTime k (parseLrcRaw text)⟩

/-! ## Claim C6 -/

/-- C6, as stated, is false: the timestamp grammar `\[(\d{1,2}):(\d{2})...\]`
checks only digit shape, not value ranges, so the fragment `[00:75]` — whose
seconds field does not represent a valid second count — is matched and does
produce a timeline entry, at 75 seconds = 75000 ms. -/
theorem c6_counterexample :
    parseLrc ("[00:75]Hi".toList) = [⟨75000, "Hi".toList⟩] ∧
      parseLrc ("[00:75]Hi".toList) ≠ [] := by
  decide

theorem timeMs_mem_of_mem_lineEntries {e : LyricLine} {line : List Char}
    (h : e ∈ lineEntries line) : e.timeMs ∈ findTimestamps line := by
  simp only [lineEntries] at h
  split at h
  · exact absurd h (List.not_mem_nil e)
  · obtain ⟨t, ht, he⟩ := List.mem_map.mp h
    rw [← he]
    exact ht

/-- C6 (amended): fragments that fail the shape of the timestamp grammar
(non-numeric, or the wrong digit counts) are not matched and produce no
timeline entry, and parsing is total (never a hard failure): every entry of
`parseLrc` arises from a grammar-matched fragment of some source line.
Shape-valid but semantically out-of-range values (such as two-digit seconds
of 60–99) are nonetheless matched. -/
theorem c6_malformed_fragments_unmatched :
    (∀ (text : List Char) (e : LyricLine), e ∈ parseLrc text →
        ∃ line ∈ splitLines text, e.timeMs ∈ findTimestamps line) ∧
      findTimestamps ("[aa:11]x".toList) = [] ∧
      findTimestamps ("[00:123]x".toList) = [] ∧
      findTimestamps ("[1:2]x".toList) = [] ∧
      findTimestamps ("[123:45]x".toList) = [] ∧
      parseLrc ("[0a:0b]Hello".toList) = [] := by
  refine ⟨?_, by decide, by decide, by decide, by decide, by decide⟩
  intro text e he
  have hraw : e ∈ parseLrcRaw text := mem_sortByTime.mp he
  unfold parseLrcRaw at hraw
  obtain ⟨line, hline, hentry⟩ := List.mem_flatMap.mp hraw
  exact ⟨line, hline, timeMs_mem_of_mem_lineEntries hentry⟩

/-- C6 witness: the entry parsed from `"[00:12.50]Hello"` is in the timeline
and indeed comes from a grammar-matched fragment of some source line. -/
theorem c6_witness :
    (⟨12500, "Hello".toList⟩ : LyricLine) ∈ parseLrc ("[00:12.50]Hello".toList) ∧
      ∃ line ∈ splitLines ("[00:12.50]Hello".toList),
        (⟨12500, "Hello".toList⟩ : LyricLine).timeMs ∈ findTimestamps line :=
  ⟨by decide,
    c6_malformed_fragments_unmatched.1 ("[00:12.50]Hello".toList)
      ⟨12500, "Hello".toList⟩ (by decide)⟩

/-! ## Claim C2 -/

theorem timeAt_mono {lines : List LyricLine}
    (hs : lines.Pairwise (fun a b => a.timeMs ≤ b.timeMs)) :
    ∀ i j : ℤ, 0 ≤ i → i ≤ j → j < (lines.length : ℤ) →
      timeAt lines i ≤ timeAt lines j := by
  intro i j hi hij hj
  rcases eq_or_lt_of_le hij with rfl | hlt
  · exact le_refl _
  · have hiN : i.toNat < lines.length := by omega
    have hjN : j.toNat < lines.length := by omega
    have hij' : i.toNat < j.toNat := by omega
    have hrel := (List.pairwise_iff_get.mp hs) ⟨i.toNat, hiN⟩ ⟨j.toNat, hjN⟩
      (by exact hij')
    have hgi : lines.getD i.toNat dummyLine = lines.get ⟨i.toNat, hiN⟩ := by
      simp [List.getD_eq_getElem?_getD, List.getElem?_eq_getElem hiN]
    have hgj : lines.getD j.toNat dummyLine = lines.get ⟨j.toNat, hjN⟩ := by
      simp [List.getD_eq_getElem?_getD, List.getElem?_eq_getElem hjN]
    unfold timeAt
    rw [hgi, hgj]
    exact_mod_cast hrel

theorem bsearch_exit (lines : List LyricLine) (t : ℚ) (left right answer : ℤ)
    (hlr : ¬ left ≤ right) (h1 : left ≤ right + 1) (h2 : right < (lines.length : ℤ))
    (hA1 : -1 ≤ answer) (hA2 : answer < left)
    (hB : 0 ≤ answer → timeAt lines answer ≤ t)
    (hC : ∀ j : ℤ, right < j → j < (lines.length : ℤ) → t < timeAt lines j)
    (hD : ∀ j : ℤ, 0 ≤ j → j < left → timeAt lines j ≤ t → j ≤ answer) :
    (answer = -1 ∧ ∀ j : ℤ, 0 ≤ j → j < (lines.length : ℤ) → t < timeAt lines j) ∨
      (0 ≤ answer ∧ answer < (lines.length : ℤ) ∧ timeAt lines answer ≤ t ∧
        ∀ j : ℤ, answer < j → j < (lines.length : ℤ) → t < timeAt lines j) := by
  rcases lt_or_le answer 0 with han | han
  · left
    refine ⟨by omega, ?_⟩
    intro j hj0 hjlen
    by_cases hjl : j < left
    · by_contra hnot
      have := hD j hj0 hjl (not_lt.mp hnot)
      omega
    · exact hC j (by omega) hjlen
  · right
    refine ⟨han, by omega, hB han, ?_⟩
    intro j hja hjlen
    by_cases hjl : j < left
    · by_contra hnot
      have := hD j (by omega) hjl (not_lt.mp hnot)
      omega
    · exact hC j (by omega) hjlen

theorem searchLoop_spec (lines : List LyricLine) (t : ℚ)
    (hmono : ∀ i j : ℤ, 0 ≤ i → i ≤ j → j < (lines.length : ℤ) →
      timeAt lines i ≤ timeAt lines j) :
    ∀ (n : ℕ) (left right answer : ℤ), (right + 1 - left).toNat ≤ n →
      0 ≤ left → left ≤ right + 1 → right < (lines.length : ℤ) →
      -1 ≤ answer → answer < left →
      (0 ≤ answer → timeAt lines answer ≤ t) →
      (∀ j : ℤ, right < j → j < (lines.length : ℤ) → t < timeAt lines j) →
      (∀ j : ℤ, 0 ≤ j → j < left → timeAt lines j ≤ t → j ≤ answer) →
      (searchLoop lines t left right answer = -1 ∧
          ∀ j : ℤ, 0 ≤ j → j < (lines.length : ℤ) → t < timeAt lines j) ∨
        (0 ≤ searchLoop lines t left right answer ∧
          searchLoop lines t left right answer < (lines.length : ℤ) ∧
          timeAt lines (searchLoop lines t left right answer) ≤ t ∧
          ∀ j : ℤ, searchLoop lines t left right answer < j →
            j < (lines.length : ℤ) → t < timeAt lines j) := by
  intro n
  induction n with
  | zero =>
    intro left right answer hfuel h0 h1 h2 hA1 hA2 hB hC hD
    have hlr : ¬ left ≤ right := by omega
    rw [searchLoop, dif_neg hlr]
    exact bsearch_exit lines t left right answer hlr h1 h2 hA1 hA2 hB hC hD
  | succ m ih =>
    intro left right answer hfuel h0 h1 h2 hA1 hA2 hB hC hD
    by_cases hlr : left ≤ right
    · rw [searchLoop, dif_pos hlr]
      have hmid1 : left ≤ (left + right) / 2 := by omega
      have hmid2 : (left + right) / 2 ≤ right := by omega
      by_cases hcmp : timeAt lines ((left + right) / 2) ≤ t
      · rw [if_pos hcmp]
        exact ih ((left + right) / 2 + 1) right ((left + right) / 2)
          (by omega) (by omega) (by omega) h2 (by omega) (by omega)
          (fun _ => hcmp) hC
          (fun j hj0 hjl hjt => by omega)
      · rw [if_neg hcmp]
        refine ih left ((left + right) / 2 - 1) answer
          (by omega) h0 (by omega) (by omega) hA1 hA2 hB ?_ hD
        intro j hj hjlen
        rcases eq_or_lt_of_le (by omega : (left + right) / 2 ≤ j) with rfl | hlt
        · exact lt_of_not_le hcmp
        · exact lt_of_lt_of_le (lt_of_not_le hcmp)
            (hmono ((left + right) / 2) j (by omega) (by omega) hjlen)
    · rw [searchLoop, dif_neg hlr]
      exact bsearch_exit lines t left right answer hlr h1 h2 hA1 hA2 hB hC hD

/-- C2: for every timeline sorted ascending by `timeMs` and every playback
time `t` (ms), `activeLyricIndex` returns `-1` exactly when no entry has
`timeMs ≤ t` (in particular on the empty timeline), and otherwise returns
the greatest index `i` with `timeline[i].timeMs ≤ t`; boundary equality
`timeline[i].timeMs = t` selects index `i` itself, since it satisfies
`timeMs ≤ t`. -/
theorem c2_resolver_correct (lines : List LyricLine) (t : ℚ)
    (hs : lines.Pairwise (fun a b => a.timeMs ≤ b.timeMs)) :
    (activeLyricIndex lines t = -1 ∧
        ∀ j : ℤ, 0 ≤ j → j < (lines.length : ℤ) → t < timeAt lines j) ∨
      (0 ≤ activeLyricIndex lines t ∧ activeLyricIndex lines t < (lines.length : ℤ) ∧
        timeAt lines (activeLyricIndex lines t) ≤ t ∧
        ∀ j : ℤ, activeLyricIndex lines t < j → j < (lines.length : ℤ) →
          t < timeAt lines j) := by
  unfold activeLyricIndex
  split
  · next hlen =>
    left
    refine ⟨rfl, ?_⟩
    intro j hj0 hjlen
    rw [hlen] at hjlen
    omega
  · next hlen =>
    refine searchLoop_spec lines t (timeAt_mono hs) lines.length 0
      ((lines.length : ℤ) - 1) (-1) (by omega) (by omega) (by omega) (by omega)
      (by omega) (by omega) ?_ ?_ ?_
    · intro h
      omega
    · intro j hj hjlen
      omega
    · intro j hj0 hjl _
      omega

/-- C2 witness: the spec's example timeline at the exact boundary
`t = 15000`: the resolver's characterisation holds, and in particular the
entry at 15000 itself is selected rather than the previous one. -/
theorem c2_witness :
    (activeLyricIndex [⟨12500, "Hello".toList⟩, ⟨15000, "World".toList⟩] 15000 = -1 ∧
        ∀ j : ℤ, 0 ≤ j →
          j < (([⟨12500, "Hello".toList⟩, ⟨15000, "World".toList⟩] : List LyricLine).length : ℤ) →
          (15000 : ℚ) < timeAt [⟨12500, "Hello".toList⟩, ⟨15000, "World".toList⟩] j) ∨
      (0 ≤ activeLyricIndex [⟨12500, "Hello".toList⟩, ⟨15000, "World".toList⟩] 15000 ∧
        activeLyricIndex [⟨12500, "Hello".toList⟩, ⟨15000, "World".toList⟩] 15000 <
          (([⟨12500, "Hello".toList⟩, ⟨15000, "World".toList⟩] : List LyricLine).length : ℤ) ∧
        timeAt [⟨12500, "Hello".toList⟩, ⟨15000, "World".toList⟩]
          (activeLyricIndex [⟨12500, "Hello".toList⟩, ⟨15000, "World".toList⟩] 15000) ≤ 15000 ∧
        ∀ j : ℤ, activeLyricIndex [⟨12500, "Hello".toList⟩, ⟨15000, "World".toList⟩] 15000 < j →
          j < (([⟨12500, "Hello".toList⟩, ⟨15000, "World".toList⟩] : List LyricLine).length : ℤ) →
          (15000 : ℚ) < timeAt [⟨12500, "Hello".toList⟩, ⟨15000, "World".toList⟩] j) :=
  c2_resolver_correct [⟨12500, "Hello".toList⟩, ⟨15000, "World".toList⟩] 15000 (by decide)

/-! ## Claim C3 -/

theorem throttleStep_spec {P : Type} [DecidableEq P] (interval : ℤ) (s : ThrottleState P)
    (e : ThrottleEv P) (hInv : TInv interval s) (hok : FireOk s e) :
    TInv interval (throttleStep interval s e).1 ∧
      (((throttleStep interval s e).2 = none ∧
          (throttleStep interval s e).1.lastSentAt = s.lastSentAt) ∨
        (∃ t p, (throttleStep interval s e).2 = some (t, p) ∧
          (throttleStep interval s e).1.lastSentAt = t ∧ s.lastSentAt + interval ≤ t)) := by
  cases e with
  | submit t p =>
    by_cases hdup : some p = s.lastSig ∧ s.pending = none
    · simp only [throttleStep, if_pos hdup]
      exact ⟨hInv, Or.inl ⟨trivial, trivial⟩⟩
    · by_cases himm : interval ≤ t - s.lastSentAt
      · simp only [throttleStep, if_neg hdup, if_pos himm]
        refine ⟨?_, Or.inr ⟨t, p, rfl, rfl, by omega⟩⟩
        intro τ hτ
        exact absurd hτ (by simp)
      · cases htimer : s.timer with
        | some τ0 =>
          simp only [throttleStep, if_neg hdup, if_neg himm, htimer]
          refine ⟨?_, Or.inl ⟨trivial, trivial⟩⟩
          intro τ hτ
          exact hInv τ (htimer ▸ hτ)
        | none =>
          simp only [throttleStep, if_neg hdup, if_neg himm, htimer]
          refine ⟨?_, Or.inl ⟨trivial, trivial⟩⟩
          intro τ hτ
          have hτ' : some (t + max 0 (interval - (t - s.lastSentAt))) = some τ := hτ
          simp only [Option.some.injEq] at hτ'
          show s.lastSentAt + interval ≤ τ
          omega
  | fire t =>
    cases htimer : s.timer with
    | none =>
      simp only [throttleStep, htimer]
      exact ⟨hInv, Or.inl ⟨trivial, trivial⟩⟩
    | some τ0 =>
      have hτt : τ0 ≤ t := by
        simp only [FireOk, htimer] at hok
        exact hok
      cases hpend : s.pending with
      | none =>
        simp only [throttleStep, htimer, hpend]
        refine ⟨?_, Or.inl ⟨trivial, trivial⟩⟩
        intro τ hτ
        exact absurd hτ (by simp)
      | some p =>
        simp only [throttleStep, htimer, hpend]
        refine ⟨?_, Or.inr ⟨t, p, rfl, rfl, ?_⟩⟩
        · intro τ hτ
          exact absurd hτ (by simp)
        · have := hInv τ0 htimer
          omega

theorem runThrottle_chain {P : Type} [DecidableEq P] (interval : ℤ) :
    ∀ (evs : List (ThrottleEv P)) (s : ThrottleState P), TInv interval s →
      FiresValid interval s evs →
      List.Chain (fun a b => a + interval ≤ b) s.lastSentAt
        ((runThrottle interval s evs).2.map Prod.fst) := by
  intro evs
  induction evs with
  | nil =>
    intro s _ _
    simp only [runThrottle, List.map_nil]
    exact List.Chain.nil
  | cons e es ih =>
    intro s hInv hV
    obtain ⟨hok, hV'⟩ := hV
    obtain ⟨hInv', hout⟩ := throttleStep_spec interval s e hInv hok
    simp only [runThrottle]
    rcases hout with ⟨hnone, hlast⟩ | ⟨t, p, hsome, hlast, hrel⟩
    · rw [hnone]
      simp only [Option.toList_none, List.nil_append]
      have := ih (throttleStep interval s e).1 hInv' hV'
      rw [hlast] at this
      exact this
    · rw [hsome]
      simp only [Option.toList_some, List.singleton_append, List.map_cons]
      refine List.Chain.cons hrel ?_
      have := ih (throttleStep interval s e).1 hInv' hV'
      rw [hlast] at this
      exact this

/-- C3: starting from any throttler state whose armed timer (if any) is due
no earlier than `lastSentAt + interval`, over any admissible event trace the
published sends are spaced at least `interval` apart (including from the
previous send recorded in `lastSentAt`); moreover a non-duplicate candidate
arriving with elapsed time `≥ interval` since the last send is published
immediately, and one arriving earlier is not published but leaves a deferred
timer due no earlier than `lastSentAt + interval`. -/
theorem c3_throttle_spacing {P : Type} [DecidableEq P] (interval : ℤ)
    (s : ThrottleState P) (evs : List (ThrottleEv P))
    (hInv : TInv interval s) (hV : FiresValid interval s evs) :
    List.Chain (fun a b => a + interval ≤ b) s.lastSentAt
        ((runThrottle interval s evs).2.map Prod.fst) ∧
      ∀ t p, ¬(some p = s.lastSig ∧ s.pending = none) →
        ((interval ≤ t - s.lastSentAt →
            (throttleStep interval s (ThrottleEv.submit t p)).2 = some (t, p)) ∧
          (t - s.lastSentAt < interval →
            (throttleStep interval s (ThrottleEv.submit t p)).2 = none ∧
              ∃ τ, (throttleStep interval s (ThrottleEv.submit t p)).1.timer = some τ ∧
                s.lastSentAt + interval ≤ τ)) := by
  refine ⟨runThrottle_chain interval evs s hInv hV, ?_⟩
  intro t p hdup
  constructor
  · intro himm
    simp only [throttleStep, if_neg hdup, if_pos himm]
  · intro hlt
    have himm : ¬ interval ≤ t - s.lastSentAt := by omega
    cases htimer : s.timer with
    | none =>
      simp only [throttleStep, if_neg hdup, if_neg himm, htimer]
      exact ⟨trivial, ⟨t + max 0 (interval - (t - s.lastSentAt)), rfl, by omega⟩⟩
    | some τ0 =>
      simp only [throttleStep, if_neg hdup, if_neg himm, htimer]
      exact ⟨trivial, ⟨τ0, rfl, hInv τ0 htimer⟩⟩

/-- C3 witness: with a 1000ms interval, from a state that last sent payload 0
at t = 0, the trace "submit 1 at 200, submit 2 at 700, timer fires at 1000"
produces sends spaced at least 1000ms apart, and the single-step facts hold. -/
theorem c3_witness :
    List.Chain (fun a b : ℤ => a + 1000 ≤ b) 0
        ((runThrottle 1000 (⟨0, some 0, none, none⟩ : ThrottleState ℕ)
            [ThrottleEv.submit 200 1, ThrottleEv.submit 700 2, ThrottleEv.fire 1000]).2.map
          Prod.fst) ∧
      ∀ t p, ¬(some p = some 0 ∧ (none : Option ℕ) = none) →
        ((1000 ≤ t - 0 →
            (throttleStep 1000 (⟨0, some 0, none, none⟩ : ThrottleState ℕ)
              (ThrottleEv.submit t p)).2 = some (t, p)) ∧
          (t - 0 < 1000 →
            (throttleStep 1000 (⟨0, some 0, none, none⟩ : ThrottleState ℕ)
              (ThrottleEv.submit t p)).2 = none ∧
              ∃ τ, (throttleStep 1000 (⟨0, some 0, none, none⟩ : ThrottleState ℕ)
                  (ThrottleEv.submit t p)).1.timer = some τ ∧
                0 + 1000 ≤ τ)) :=
  c3_throttle_spacing 1000 ⟨0, some 0, none, none⟩
    [ThrottleEv.submit 200 1, ThrottleEv.submit 700 2, ThrottleEv.fire 1000]
    (fun τ hτ => nomatch hτ)
    (by
      have hs2 : (throttleStep 1000
          (throttleStep 1000 (⟨0, some 0, none, none⟩ : ThrottleState ℕ)
            (ThrottleEv.submit 200 1)).1 (ThrottleEv.submit 700 2)).1 =
          ⟨0, some 0, some 2, some 1000⟩ := by decide
      refine ⟨trivial, trivial, ?_, trivial⟩
      rw [hs2]
      show (1000 : ℤ) ≤ 1000
      exact le_refl 1000)

/-! ## Claim C7 -/

/-- C7: a candidate arriving before the minimum interval has elapsed is
stored as the single pending payload (overwriting any previous one) and is
not published; an already-armed timer is left unchanged, so at most one
deferred timer is outstanding; when the timer fires, the then-current
pending payload is the one published.  In particular, with a 1000ms interval
and a send at t = 0, a candidate at t = 200 is deferred, a candidate at
t = 700 overwrites it, and the send at t = 1000 carries the t = 700 payload. -/
theorem c7_pending_overwrite {P : Type} [DecidableEq P] (interval : ℤ) :
    (∀ (s : ThrottleState P) (t : ℤ) (p : P),
        ¬(some p = s.lastSig ∧ s.pending = none) → t - s.lastSentAt < interval →
          (throttleStep interval s (ThrottleEv.submit t p)).1.pending = some p ∧
            (throttleStep interval s (ThrottleEv.submit t p)).2 = none ∧
            ∀ τ, s.timer = some τ →
              (throttleStep interval s (ThrottleEv.submit t p)).1.timer = some τ) ∧
      (∀ (s : ThrottleState P) (t τ : ℤ) (p : P), s.timer = some τ →
          s.pending = some p →
          throttleStep interval s (ThrottleEv.fire t) =
            (⟨t, some p, none, none⟩, some (t, p))) ∧
      runThrottle 1000 (⟨0, some 0, none, none⟩ : ThrottleState ℕ)
          [ThrottleEv.submit 200 1, ThrottleEv.submit 700 2, ThrottleEv.fire 1000] =
        (⟨1000, some 2, none, none⟩, [(1000, 2)]) := by
  refine ⟨?_, ?_, by decide⟩
  · intro s t p hdup hlt
    have himm : ¬ interval ≤ t - s.lastSentAt := by omega
    cases htimer : s.timer with
    | none =>
      simp only [throttleStep, if_neg hdup, if_neg himm, htimer]
      exact ⟨trivial, trivial, fun τ hτ => by simp at hτ⟩
    | some τ0 =>
      simp only [throttleStep, if_neg hdup, if_neg himm, htimer]
      exact ⟨trivial, trivial, fun τ hτ => hτ⟩
  · intro s t τ p htimer hpend
    simp only [throttleStep, htimer, hpend]

/-- C7 witness: the overwrite step at t = 700 on the state holding the
deferred t = 200 candidate, and the timer firing on the overwritten state. -/
theorem c7_witness :
    ((throttleStep 1000 (⟨0, some 0, some 1, some 1000⟩ : ThrottleState ℕ)
          (ThrottleEv.submit 700 2)).1.pending = some 2 ∧
        (throttleStep 1000 (⟨0, some 0, some 1, some 1000⟩ : ThrottleState ℕ)
          (ThrottleEv.submit 700 2)).2 = none ∧
        ∀ τ, (⟨0, some 0, some 1, some 1000⟩ : ThrottleState ℕ).timer = some τ →
          (throttleStep 1000 (⟨0, some 0, some 1, some 1000⟩ : ThrottleState ℕ)
            (ThrottleEv.submit 700 2)).1.timer = some τ) ∧
      throttleStep 1000 (⟨0, some 0, some 2, some 1000⟩ : ThrottleState ℕ)
          (ThrottleEv.fire 1000) = (⟨1000, some 2, none, none⟩, some (1000, 2)) :=
  ⟨(c7_pending_overwrite 1000).1 ⟨0, some 0, some 1, some 1000⟩ 700 2
      (by decide) (by decide),
    (c7_pending_overwrite 1000).2.1 ⟨0, some 0, some 2, some 1000⟩ 1000 1000 2 rfl rfl⟩

end BarsPlayer
